import Mathlib

/-!
# Verification of the cline-support document repository core

Shallow embedding of the domain layer (identity value objects, entity
validation), the file-system repositories (`FileSystemFeatureRepository`,
`FileSystemTermRepository`) and the `GetDetailsUseCase` of the
cline-support server, together with proofs about the repository contract.

Modelling conventions:
* TypeScript strings are Lean `String`s; the JavaScript `trim()` is
  modelled by `jsTrim` over the ECMAScript whitespace set.
* Arrays are Lean `List`s; `Array.isArray` checks on fields that the
  embedding gives a `List` type are vacuously true and are dropped.
* JavaScript numbers are modelled as `ℚ` (this keeps the distinction
  between integral and non-integral numeric values; no NaN/Infinity).
* The `Result`/`Option` tagged objects of `shared/types/functional.ts`
  become `Except String` and `Option`.
* File-system state is the abstract `StoredFile`: the design-document
  file is missing, holds malformed (non-JSON) text, or holds parsed JSON
  whose `features`/`terms` keys are each either a well-typed array
  (`some l`) or absent/non-array (`none`).  `loadDesignDocument` mirrors
  the repository's load; `saveDesignDocument` (an fs write in the
  source) is modelled by returning the document that would be written:
  repository mutations return the written document as an
  `Option DesignDocumentData` (`none` = the file was not written), and
  `applyWrite` turns a write into the next file state.
-/

/-- ECMAScript whitespace (the set trimmed by `String.prototype.trim`
and matched by `\s`). -/
def isJsSpace (c : Char) : Bool :=
  c.val = 9 || c.val = 10 || c.val = 11 || c.val = 12 || c.val = 13 ||
  c.val = 32 || c.val = 160 || c.val = 0x1680 ||
  (0x2000 ≤ c.val && c.val ≤ 0x200A) ||
  c.val = 0x2028 || c.val = 0x2029 || c.val = 0x202F || c.val = 0x205F ||
  c.val = 0x3000 || c.val = 0xFEFF

/-- JavaScript `value.trim()`. -/
def jsTrim (s : String) : String :=
  ⟨((s.data.dropWhile isJsSpace).reverse.dropWhile isJsSpace).reverse⟩

/-- `CONFIG.VALIDATION.MIN_STRING_LENGTH`. -/
def MIN_STRING_LENGTH : Nat := 1

/-- `CONFIG.VALIDATION.MIN_STEP_NUMBER`. -/
def MIN_STEP_NUMBER : ℚ := 1

/-- ASCII letter, the `[a-zA-Z]` regex class. -/
def isAsciiLetter (c : Char) : Bool :=
  ('a' ≤ c && c ≤ 'z') || ('A' ≤ c && c ≤ 'Z')

/-- ASCII digit, the `[0-9]` regex class. -/
def isAsciiDigit (c : Char) : Bool :=
  '0' ≤ c && c ≤ '9'

/-- The feature-name regex `^[a-zA-Z][a-zA-Z0-9_]*$` of
`FeatureName.validate`. -/
def featureNamePattern (s : String) : Bool :=
  match s.data with
  | [] => false
  | c :: cs => isAsciiLetter c && cs.all fun d => isAsciiLetter d || isAsciiDigit d || d = '_'

/-- One character of the term-name regex class
`[぀-ゟ゠-ヿ一-龯㐀-䶿a-zA-Z0-9_\-\s]`. -/
def isTermNameChar (c : Char) : Bool :=
  (0x3040 ≤ c.val && c.val ≤ 0x309F) || (0x30A0 ≤ c.val && c.val ≤ 0x30FF) ||
  (0x4E00 ≤ c.val && c.val ≤ 0x9FAF) || (0x3400 ≤ c.val && c.val ≤ 0x4DBF) ||
  isAsciiLetter c || isAsciiDigit c || c = '_' || c = '-' || isJsSpace c

/-- The term-name regex (the class above, one or more times, anchored)
of `TermName.validate`. -/
def termNamePattern (s : String) : Bool :=
  !s.data.isEmpty && s.data.all isTermNameChar

/-- Value object `FeatureName` (domain/valueObjects/FeatureName.ts):
holds the trimmed string value. -/
structure FeatureName where
  value : String
deriving DecidableEq, Repr

/-- `FeatureName.validate` — the list of validation error messages.
The `typeof value !== 'string'` branch is unreachable in the typed
embedding and is dropped. -/
def FeatureName.validate (value : String) : List String :=
  (if jsTrim value = "" then ["機能名は空文字列にできません"] else []) ++
  (if (jsTrim value).length < MIN_STRING_LENGTH then
    ["機能名は" ++ toString MIN_STRING_LENGTH ++ "文字以上である必要があります"] else []) ++
  (if featureNamePattern (jsTrim value) then [] else
    ["機能名は英字で始まり、英数字とアンダースコアのみ使用可能です"])

/-- `FeatureName.create`: validate, then construct from the trimmed value. -/
def FeatureName.create (value : String) : Except String FeatureName :=
  let validationErrors := FeatureName.validate value
  if validationErrors.isEmpty then .ok ⟨jsTrim value⟩
  else .error (String.intercalate ", " validationErrors)

/-- `FeatureName.isValid`. -/
def FeatureName.isValid (value : String) : Bool :=
  (FeatureName.validate value).isEmpty

/-- Value object `TermName` (domain/valueObjects/TermName.ts). -/
structure TermName where
  value : String
deriving DecidableEq, Repr

/-- `TermName.validate`. -/
def TermName.validate (value : String) : List String :=
  (if jsTrim value = "" then ["用語名は空文字列にできません"] else []) ++
  (if (jsTrim value).length < MIN_STRING_LENGTH then
    ["用語名は" ++ toString MIN_STRING_LENGTH ++ "文字以上である必要があります"] else []) ++
  (if termNamePattern (jsTrim value) then [] else
    ["用語名は日本語、英数字、ハイフン、アンダースコア、スペースのみ使用可能です"])

/-- `TermName.create`. -/
def TermName.create (value : String) : Except String TermName :=
  let validationErrors := TermName.validate value
  if validationErrors.isEmpty then .ok ⟨jsTrim value⟩
  else .error (String.intercalate ", " validationErrors)

/-- `TermName.isValid`. -/
def TermName.isValid (value : String) : Bool :=
  (TermName.validate value).isEmpty

/-- `InputData` (domain/types.ts). -/
structure InputData where
  name : String
  dataTypeDescription : String
  constraints : List String
  purpose : String
deriving DecidableEq, Repr

/-- `OutputData`; the free-form `structureHint` map is a list of
string key/value pairs. -/
structure OutputData where
  condition : String
  dataDescription : String
  structureHint : List (String × String)
deriving DecidableEq, Repr

/-- `CoreLogicStepData`; `stepNumber` is a JavaScript number, modelled
as `ℚ`. -/
structure CoreLogicStepData where
  stepNumber : ℚ
  description : String
  inputs : List String
  output : String
deriving DecidableEq, Repr

/-- `ErrorHandlingData`. -/
structure ErrorHandlingData where
  errorCondition : String
  detectionPoint : String
  handlingStrategyDescription : String
  resultingOutputCondition : String
deriving DecidableEq, Repr

/-- `NonFunctionalRequirementData`. -/
structure NonFunctionalRequirementData where
  requirement : String
  considerationsForLogic : String
deriving DecidableEq, Repr

/-- The `feature` sub-object of `FeatureData`. -/
structure FeatureBasicData where
  name : String
  purpose : String
  userStories : List String
deriving DecidableEq, Repr

/-- `FeatureData` (domain/types.ts). -/
structure FeatureData where
  feature : FeatureBasicData
  inputs : List InputData
  outputs : List OutputData
  coreLogicSteps : List CoreLogicStepData
  errorHandling : List ErrorHandlingData
  nonFunctionalRequirements : List NonFunctionalRequirementData
  documentationNotes : List String
deriving DecidableEq, Repr

/-- The `context` sub-object of a term. -/
structure TermContextData where
  boundedContext : String
  scope : String
deriving DecidableEq, Repr

/-- The `term` sub-object of `TermData`. -/
structure TermBasicData where
  name : String
  definition : String
  aliases : List String
  context : TermContextData
deriving DecidableEq, Repr

/-- `ExampleData`. -/
structure ExampleData where
  scenario : String
  description : String
deriving DecidableEq, Repr

/-- The `details` sub-object of `TermData`. -/
structure TermDetailsData where
  category : String
  examples : List ExampleData
  ambiguitiesAndBoundaries : List String
deriving DecidableEq, Repr

/-- `RelatedTermData`. -/
structure RelatedTermData where
  termName : String
  relationshipType : String
deriving DecidableEq, Repr

/-- The `relationships` sub-object of `TermData`. -/
structure TermRelationshipsData where
  relatedTerms : List RelatedTermData
  associatedFunctions : List String
deriving DecidableEq, Repr

/-- The `implementation` sub-object of `TermData`. -/
structure TermImplementationData where
  codeMapping : String
  dataStructureHint : List (String × String)
  constraints : List String
deriving DecidableEq, Repr

/-- `TermData` (domain/types.ts). -/
structure TermData where
  term : TermBasicData
  details : TermDetailsData
  relationships : TermRelationshipsData
  implementation : TermImplementationData
deriving DecidableEq, Repr

/-- Entity `Feature` (domain/entities/Feature.ts): a validated name
paired with the full data. -/
structure Feature where
  name : FeatureName
  data : FeatureData
deriving DecidableEq, Repr

/-- Entity `Term` (domain/entities/Term.ts). -/
structure Term where
  name : TermName
  data : TermData
deriving DecidableEq, Repr

/-- `Feature.validateInputs` (indexed error messages; the
`Array.isArray(input.constraints)` check is vacuous here). -/
def Feature.validateInputsAux : Nat → List InputData → List String
  | _, [] => []
  | index, input :: rest =>
    ((if jsTrim input.name = "" then
        ["入力パラメータ[" ++ toString index ++ "]: 名前は必須です"] else []) ++
     (if jsTrim input.dataTypeDescription = "" then
        ["入力パラメータ[" ++ toString index ++ "]: データ型説明は必須です"] else []) ++
     (if jsTrim input.purpose = "" then
        ["入力パラメータ[" ++ toString index ++ "]: 目的は必須です"] else [])) ++
    Feature.validateInputsAux (index + 1) rest

/-- `Feature.validateOutputs` (the `structureHint` object check is
vacuous here: the typed map is always an object). -/
def Feature.validateOutputsAux : Nat → List OutputData → List String
  | _, [] => []
  | index, output :: rest =>
    ((if jsTrim output.condition = "" then
        ["出力データ[" ++ toString index ++ "]: 条件は必須です"] else []) ++
     (if jsTrim output.dataDescription = "" then
        ["出力データ[" ++ toString index ++ "]: データ説明は必須です"] else [])) ++
    Feature.validateOutputsAux (index + 1) rest

/-- The per-element part of `Feature.validateCoreLogicSteps`
(`typeof step.stepNumber !== 'number'` and `Array.isArray(step.inputs)`
are vacuous here). -/
def Feature.validateCoreLogicStepsAux : Nat → List CoreLogicStepData → List String
  | _, [] => []
  | index, step :: rest =>
    ((if step.stepNumber < MIN_STEP_NUMBER then
        ["コアロジックステップ[" ++ toString index ++ "]: ステップ番号は1以上の数値である必要があります"] else []) ++
     (if jsTrim step.description = "" then
        ["コアロジックステップ[" ++ toString index ++ "]: 説明は必須です"] else []) ++
     (if jsTrim step.output = "" then
        ["コアロジックステップ[" ++ toString index ++ "]: 出力は必須です"] else [])) ++
    Feature.validateCoreLogicStepsAux (index + 1) rest

/-- The duplicate-step-number error message. -/
def duplicateStepMsg : String := "コアロジックステップのステップ番号に重複があります"

/-- `Feature.validateCoreLogicSteps`: per-element checks, then the
duplicate check (`stepNumbers.length !== new Set(stepNumbers).size`,
i.e. the list of step numbers shrinks under deduplication). -/
def Feature.validateCoreLogicSteps (steps : List CoreLogicStepData) : List String :=
  Feature.validateCoreLogicStepsAux 0 steps ++
  (let stepNumbers := steps.map fun s => s.stepNumber
   if stepNumbers.length = stepNumbers.dedup.length then [] else [duplicateStepMsg])

/-- `Feature.validateFeatureData`: the accumulated error list (the
source wraps it in a `ValidationResult`; `isValid` is emptiness of this
list).  The `Array.isArray` checks on the typed list fields are vacuous
here. -/
def Feature.validateFeatureData (data : FeatureData) : List String :=
  (if jsTrim data.feature.purpose = "" then ["機能の目的は必須です"] else []) ++
  Feature.validateInputsAux 0 data.inputs ++
  Feature.validateOutputsAux 0 data.outputs ++
  Feature.validateCoreLogicSteps data.coreLogicSteps

/-- `Feature.create`: identity first (propagating its error without
running full validation), then full structural validation. -/
def Feature.create (data : FeatureData) : Except String Feature :=
  match FeatureName.create data.feature.name with
  | .error e => .error e
  | .ok name =>
    let errs := Feature.validateFeatureData data
    if errs.isEmpty then .ok ⟨name, data⟩
    else .error (String.intercalate ", " errs)

/-- `Term.validateExamples`. -/
def Term.validateExamplesAux : Nat → List ExampleData → List String
  | _, [] => []
  | index, ex :: rest =>
    ((if jsTrim ex.scenario = "" then
        ["使用例[" ++ toString index ++ "]: シナリオは必須です"] else []) ++
     (if jsTrim ex.description = "" then
        ["使用例[" ++ toString index ++ "]: 説明は必須です"] else [])) ++
    Term.validateExamplesAux (index + 1) rest

/-- `Term.validateRelatedTerms`. -/
def Term.validateRelatedTermsAux : Nat → List RelatedTermData → List String
  | _, [] => []
  | index, rt :: rest =>
    ((if jsTrim rt.termName = "" then
        ["関連用語[" ++ toString index ++ "]: 用語名は必須です"] else []) ++
     (if jsTrim rt.relationshipType = "" then
        ["関連用語[" ++ toString index ++ "]: 関係タイプは必須です"] else [])) ++
    Term.validateRelatedTermsAux (index + 1) rest

/-- `Term.validateTermData`: the accumulated error list.  The presence
checks on the nested objects (`!data.term.context` …) and the
`Array.isArray` checks are vacuous in the typed embedding. -/
def Term.validateTermData (data : TermData) : List String :=
  (if jsTrim data.term.definition = "" then ["用語の定義は必須です"] else []) ++
  (if jsTrim data.term.context.boundedContext = "" then ["境界づけられたコンテキストは必須です"] else []) ++
  (if jsTrim data.term.context.scope = "" then ["スコープは必須です"] else []) ++
  (if jsTrim data.details.category = "" then ["カテゴリは必須です"] else []) ++
  Term.validateExamplesAux 0 data.details.examples ++
  Term.validateRelatedTermsAux 0 data.relationships.relatedTerms ++
  (if jsTrim data.implementation.codeMapping = "" then ["コードマッピングは必須です"] else [])

/-- `Term.create`. -/
def Term.create (data : TermData) : Except String Term :=
  match TermName.create data.term.name with
  | .error e => .error e
  | .ok name =>
    let errs := Term.validateTermData data
    if errs.isEmpty then .ok ⟨name, data⟩
    else .error (String.intercalate ", " errs)

/-- `DesignDocumentData` (domain/types.ts). -/
structure DesignDocumentData where
  features : List FeatureData
  terms : List TermData
deriving DecidableEq, Repr

/-- `OperationResultData`. -/
structure OperationResultData where
  isUpdate : Bool
deriving DecidableEq, Repr

/-- `DeletionResultData`. -/
structure DeletionResultData where
  found : Bool
deriving DecidableEq, Repr

/-- `FeatureListItemData`. -/
structure FeatureListItemData where
  name : String
  purpose : String
deriving DecidableEq, Repr

/-- `TermListItemData`. -/
structure TermListItemData where
  name : String
  definition : String
  category : String
deriving DecidableEq, Repr

/-- Abstract state of the design-document file on disk. -/
inductive StoredFile
  | missing
  | invalidJson
  | parsed (features : Option (List FeatureData)) (terms : Option (List TermData))
deriving DecidableEq, Repr

/-- `MESSAGES.ERROR.DESIGN_LOAD_FAILED`. -/
def DESIGN_LOAD_FAILED (e : String) : String :=
  "設計書ファイルの読み込みに失敗しました: " ++ e

/-- `loadDesignDocument` (identical in both repositories): a missing
file (ENOENT) is an empty document; a malformed file is a load
failure; a parsed document has each of its `features`/`terms` keys
coerced to `[]` when absent or not an array. -/
def loadDesignDocument : StoredFile → Except String DesignDocumentData
  | .missing => .ok ⟨[], []⟩
  | .invalidJson => .error (DESIGN_LOAD_FAILED "Unexpected token in JSON")
  | .parsed fOpt tOpt => .ok ⟨fOpt.getD [], tOpt.getD []⟩

/-- Effect of a repository call's write action on the file: `none`
means the file was not written; `some d` means `d` was serialized and
written, so the next load parses both keys as arrays. -/
def applyWrite (file : StoredFile) : Option DesignDocumentData → StoredFile
  | none => file
  | some d => .parsed (some d.features) (some d.terms)

/-- `FileSystemFeatureRepository.findByName`. -/
def FeatureRepo.findByName (file : StoredFile) (name : FeatureName) :
    Except String (Option Feature) :=
  match loadDesignDocument file with
  | .error e => .error e
  | .ok doc =>
    match doc.features.find? (fun f => f.feature.name == name.value) with
    | none => .ok none
    | some featureData =>
      match Feature.create featureData with
      | .error e => .error e
      | .ok f => .ok (some f)

/-- The accumulation loop of `FileSystemFeatureRepository.findAll`:
successes and error messages are gathered over the whole collection,
and any error fails the call (fail-fast). -/
def FeatureRepo.findAllGo : List FeatureData → List Feature → List String →
    Except String (List Feature)
  | [], features, errors =>
    if errors.isEmpty then .ok features
    else .error (String.intercalate ", " errors)
  | fd :: rest, features, errors =>
    match Feature.create fd with
    | .ok f => FeatureRepo.findAllGo rest (features ++ [f]) errors
    | .error e =>
      FeatureRepo.findAllGo rest features
        (errors ++ ["機能「" ++ fd.feature.name ++ "」の読み込みに失敗: " ++ e])

/-- `FileSystemFeatureRepository.findAll`. -/
def FeatureRepo.findAll (file : StoredFile) : Except String (List Feature) :=
  match loadDesignDocument file with
  | .error e => .error e
  | .ok doc => FeatureRepo.findAllGo doc.features [] []

/-- `FileSystemFeatureRepository.getList`: a lightweight projection,
no entity validation. -/
def FeatureRepo.getList (file : StoredFile) : Except String (List FeatureListItemData) :=
  match loadDesignDocument file with
  | .error e => .error e
  | .ok doc => .ok (doc.features.map fun f => ⟨f.feature.name, f.feature.purpose⟩)

/-- `FileSystemFeatureRepository.save`: locate by name, replace in
place or append, then persist the whole document (the returned
`Option DesignDocumentData` is the write to the file). -/
def FeatureRepo.save (file : StoredFile) (feature : Feature) :
    Except String (OperationResultData × Option DesignDocumentData) :=
  match loadDesignDocument file with
  | .error e => .error e
  | .ok doc =>
    match doc.features.findIdx? (fun f => f.feature.name == feature.name.value) with
    | some existingIndex =>
      .ok (⟨true⟩, some { doc with features := doc.features.set existingIndex feature.data })
    | none =>
      .ok (⟨false⟩, some { doc with features := doc.features ++ [feature.data] })

/-- `FileSystemFeatureRepository.delete`: absent name is a successful
no-op without a write; a present name is removed (`filter` on the
located index, i.e. `eraseIdx`) and the document persisted. -/
def FeatureRepo.delete (file : StoredFile) (name : FeatureName) :
    Except String (DeletionResultData × Option DesignDocumentData) :=
  match loadDesignDocument file with
  | .error e => .error e
  | .ok doc =>
    match doc.features.findIdx? (fun f => f.feature.name == name.value) with
    | none => .ok (⟨false⟩, none)
    | some existingIndex =>
      .ok (⟨true⟩, some { doc with features := doc.features.eraseIdx existingIndex })

/-- `FileSystemFeatureRepository.count`: collection length, no
validation. -/
def FeatureRepo.count (file : StoredFile) : Except String Nat :=
  match loadDesignDocument file with
  | .error e => .error e
  | .ok doc => .ok doc.features.length

/-- The per-name loop of `FileSystemFeatureRepository.findByNames`:
partition into found/notFound; a located record that fails entity
validation fails the whole call. -/
def FeatureRepo.findByNamesGo (stored : List FeatureData) :
    List FeatureName → List Feature → List FeatureName →
    Except String (List Feature × List FeatureName)
  | [], found, notFound => .ok (found, notFound)
  | name :: rest, found, notFound =>
    match stored.find? (fun f => f.feature.name == name.value) with
    | some featureData =>
      match Feature.create featureData with
      | .ok f => FeatureRepo.findByNamesGo stored rest (found ++ [f]) notFound
      | .error e => .error e
    | none => FeatureRepo.findByNamesGo stored rest found (notFound ++ [name])

/-- `FileSystemFeatureRepository.findByNames`. -/
def FeatureRepo.findByNames (file : StoredFile) (names : List FeatureName) :
    Except String (List Feature × List FeatureName) :=
  match loadDesignDocument file with
  | .error e => .error e
  | .ok doc => FeatureRepo.findByNamesGo doc.features names [] []

/-- `FileSystemTermRepository.findByName`. -/
def TermRepo.findByName (file : StoredFile) (name : TermName) :
    Except String (Option Term) :=
  match loadDesignDocument file with
  | .error e => .error e
  | .ok doc =>
    match doc.terms.find? (fun t => t.term.name == name.value) with
    | none => .ok none
    | some termData =>
      match Term.create termData with
      | .error e => .error e
      | .ok t => .ok (some t)

/-- The accumulation loop of `FileSystemTermRepository.findAll`. -/
def TermRepo.findAllGo : List TermData → List Term → List String →
    Except String (List Term)
  | [], terms, errors =>
    if errors.isEmpty then .ok terms
    else .error (String.intercalate ", " errors)
  | td :: rest, terms, errors =>
    match Term.create td with
    | .ok t => TermRepo.findAllGo rest (terms ++ [t]) errors
    | .error e =>
      TermRepo.findAllGo rest terms
        (errors ++ ["用語「" ++ td.term.name ++ "」の読み込みに失敗: " ++ e])

/-- `FileSystemTermRepository.findAll`. -/
def TermRepo.findAll (file : StoredFile) : Except String (List Term) :=
  match loadDesignDocument file with
  | .error e => .error e
  | .ok doc => TermRepo.findAllGo doc.terms [] []

/-- `FileSystemTermRepository.getList`. -/
def TermRepo.getList (file : StoredFile) : Except String (List TermListItemData) :=
  match loadDesignDocument file with
  | .error e => .error e
  | .ok doc =>
    .ok (doc.terms.map fun t => ⟨t.term.name, t.term.definition, t.details.category⟩)

/-- `FileSystemTermRepository.save`. -/
def TermRepo.save (file : StoredFile) (term : Term) :
    Except String (OperationResultData × Option DesignDocumentData) :=
  match loadDesignDocument file with
  | .error e => .error e
  | .ok doc =>
    match doc.terms.findIdx? (fun t => t.term.name == term.name.value) with
    | some existingIndex =>
      .ok (⟨true⟩, some { doc with terms := doc.terms.set existingIndex term.data })
    | none =>
      .ok (⟨false⟩, some { doc with terms := doc.terms ++ [term.data] })

/-- `FileSystemTermRepository.delete`. -/
def TermRepo.delete (file : StoredFile) (name : TermName) :
    Except String (DeletionResultData × Option DesignDocumentData) :=
  match loadDesignDocument file with
  | .error e => .error e
  | .ok doc =>
    match doc.terms.findIdx? (fun t => t.term.name == name.value) with
    | none => .ok (⟨false⟩, none)
    | some existingIndex =>
      .ok (⟨true⟩, some { doc with terms := doc.terms.eraseIdx existingIndex })

/-- `FileSystemTermRepository.count`. -/
def TermRepo.count (file : StoredFile) : Except String Nat :=
  match loadDesignDocument file with
  | .error e => .error e
  | .ok doc => .ok doc.terms.length

/-- The per-name loop of `FileSystemTermRepository.findByNames`. -/
def TermRepo.findByNamesGo (stored : List TermData) :
    List TermName → List Term → List TermName →
    Except String (List Term × List TermName)
  | [], found, notFound => .ok (found, notFound)
  | name :: rest, found, notFound =>
    match stored.find? (fun t => t.term.name == name.value) with
    | some termData =>
      match Term.create termData with
      | .ok t => TermRepo.findByNamesGo stored rest (found ++ [t]) notFound
      | .error e => .error e
    | none => TermRepo.findByNamesGo stored rest found (notFound ++ [name])

/-- `FileSystemTermRepository.findByNames`. -/
def TermRepo.findByNames (file : StoredFile) (names : List TermName) :
    Except String (List Term × List TermName) :=
  match loadDesignDocument file with
  | .error e => .error e
  | .ok doc => TermRepo.findByNamesGo doc.terms names [] []

/-- The `notFound` part of `DetailsResponseData`. -/
structure DetailsNotFoundData where
  featureNames : List String
  termNames : List String
deriving DecidableEq, Repr

/-- `DetailsResponseData` (domain/types.ts). -/
structure DetailsResponseData where
  features : List FeatureData
  terms : List TermData
  notFound : DetailsNotFoundData
deriving DecidableEq, Repr

/-- `GetDetailsUseCase.getFeatures`: absent or empty name list short
circuits to an empty found/notFound pair before any repository access;
otherwise every raw string is converted to a `FeatureName` and — if any
conversion failed — the call fails with the aggregated error, else the
lookup is delegated to `findByNames`. -/
def GetDetailsUseCase.getFeatures (file : StoredFile)
    (featureNames : Option (List String)) :
    Except String (List Feature × List FeatureName) :=
  match featureNames with
  | none => .ok ([], [])
  | some names =>
    if names.length = 0 then .ok ([], [])
    else
      let nameResults := names.map FeatureName.create
      let invalidNames := nameResults.filterMap fun r =>
        match r with | .error e => some e | .ok _ => none
      if invalidNames.isEmpty then
        FeatureRepo.findByNames file (nameResults.filterMap Except.toOption)
      else
        .error ("不正な機能名が含まれています: " ++ String.intercalate ", " invalidNames)

/-- `GetDetailsUseCase.getTerms`. -/
def GetDetailsUseCase.getTerms (file : StoredFile)
    (termNames : Option (List String)) :
    Except String (List Term × List TermName) :=
  match termNames with
  | none => .ok ([], [])
  | some names =>
    if names.length = 0 then .ok ([], [])
    else
      let nameResults := names.map TermName.create
      let invalidNames := nameResults.filterMap fun r =>
        match r with | .error e => some e | .ok _ => none
      if invalidNames.isEmpty then
        TermRepo.findByNames file (nameResults.filterMap Except.toOption)
      else
        .error ("不正な用語名が含まれています: " ++ String.intercalate ", " invalidNames)

/-- `GetDetailsUseCase.execute`: features first, then terms, then the
response assembly. -/
def GetDetailsUseCase.execute (file : StoredFile)
    (featureNames termNames : Option (List String)) :
    Except String DetailsResponseData :=
  match GetDetailsUseCase.getFeatures file featureNames with
  | .error e => .error e
  | .ok featuresResult =>
    match GetDetailsUseCase.getTerms file termNames with
    | .error e => .error e
    | .ok termsResult =>
      .ok { features := featuresResult.1.map fun f => f.data
            terms := termsResult.1.map fun t => t.data
            notFound := { featureNames := featuresResult.2.map fun n => n.value
                          termNames := termsResult.2.map fun n => n.value } }

/-! ## General list lemmas used by the repository proofs -/

/-- `findIdx?` on a cons, with the start index eliminated. -/
theorem findIdx?_cons_eq {α : Type} (p : α → Bool) (x : α) (xs : List α) :
    (x :: xs).findIdx? p = if p x then some 0 else (xs.findIdx? p).map fun k => k + 1 := by
  rw [List.findIdx?_cons]
  by_cases h : p x
  · simp [h]
  · simp [h, List.findIdx?_start_succ]

/-- If no index matches, no element matches. -/
theorem find?_eq_none_of_findIdx?_eq_none {α : Type} {p : α → Bool} {l : List α}
    (h : l.findIdx? p = none) : l.find? p = none := by
  rw [List.findIdx?_eq_none_iff] at h
  rw [List.find?_eq_none]
  intro x hx
  simp [h x hx]

/-- Writing a matching element at the first matching index makes it the
first match. -/
theorem find?_set_of_findIdx? {α : Type} {p : α → Bool} {a : α} (ha : p a = true) :
    ∀ (l : List α) (i : Nat), l.findIdx? p = some i → (l.set i a).find? p = some a := by
  intro l
  induction l with
  | nil => intro i h; simp at h
  | cons x xs ih =>
    intro i h
    rw [findIdx?_cons_eq] at h
    by_cases hx : p x
    · rw [if_pos hx] at h
      obtain rfl : (0 : Nat) = i := Option.some.inj h
      rw [List.set_cons_zero]
      exact List.find?_cons_of_pos _ ha
    · rw [if_neg hx] at h
      obtain ⟨j, hj, rfl⟩ := Option.map_eq_some'.mp h
      rw [List.set_cons_succ]
      rw [List.find?_cons_of_neg _ hx]
      exact ih j hj

/-- Appending a matching element to a list with no match locates it at
the end. -/
theorem findIdx?_append_singleton {α : Type} {p : α → Bool} {l : List α} {a : α}
    (h : l.findIdx? p = none) (ha : p a = true) :
    (l ++ [a]).findIdx? p = some l.length := by
  rw [List.findIdx?_append, h]
  simp [findIdx?_cons_eq, ha]

/-- Erasing the first match decreases the match count by one. -/
theorem countP_eraseIdx_of_findIdx? {α : Type} {p : α → Bool} :
    ∀ (l : List α) (i : Nat), l.findIdx? p = some i →
      l.countP p = (l.eraseIdx i).countP p + 1 := by
  intro l
  induction l with
  | nil => intro i h; simp at h
  | cons x xs ih =>
    intro i h
    rw [findIdx?_cons_eq] at h
    by_cases hx : p x
    · rw [if_pos hx] at h
      obtain rfl : (0 : Nat) = i := Option.some.inj h
      rw [List.eraseIdx_cons_zero, List.countP_cons_of_pos _ _ hx]
    · rw [if_neg hx] at h
      obtain ⟨j, hj, rfl⟩ := Option.map_eq_some'.mp h
      rw [List.eraseIdx_cons_succ, List.countP_cons_of_neg _ _ hx,
        List.countP_cons_of_neg _ _ hx]
      exact ih j hj

/-- If at most one element matches, erasing the first match leaves no
match. -/
theorem findIdx?_eraseIdx_of_countP_le_one {α : Type} {p : α → Bool} {l : List α} {i : Nat}
    (h : l.findIdx? p = some i) (hc : l.countP p ≤ 1) :
    (l.eraseIdx i).findIdx? p = none := by
  have hcount := countP_eraseIdx_of_findIdx? l i h
  have hzero : (l.eraseIdx i).countP p = 0 := by omega
  rw [List.countP_eq_zero] at hzero
  rw [List.findIdx?_eq_none_iff]
  intro x hx
  simpa using hzero x hx

/-- A created feature entity holds exactly the data it was created from. -/
theorem featureCreate_ok_data {d : FeatureData} {f : Feature}
    (h : Feature.create d = Except.ok f) : f.data = d := by
  unfold Feature.create at h
  cases hn : FeatureName.create d.feature.name with
  | error e => rw [hn] at h; cases h
  | ok nm =>
    rw [hn] at h
    by_cases he : (Feature.validateFeatureData d).isEmpty
    · simp only [he, if_true] at h
      cases h
      rfl
    · simp only [he, if_false] at h
      cases h

/-- A created term entity holds exactly the data it was created from. -/
theorem termCreate_ok_data {d : TermData} {t : Term}
    (h : Term.create d = Except.ok t) : t.data = d := by
  unfold Term.create at h
  cases hn : TermName.create d.term.name with
  | error e => rw [hn] at h; cases h
  | ok nm =>
    rw [hn] at h
    by_cases he : (Term.validateTermData d).isEmpty
    · simp only [he, if_true] at h
      cases h
      rfl
    · simp only [he, if_false] at h
      cases h

/-! ## Claim C6 -/

/-- C6 counterexample: the claim "`FeatureName.create` succeeds exactly
when the string matches `^[a-zA-Z][a-zA-Z0-9_]*$`" fails on the code as
stated: `" A "` does not match the pattern (it starts with a space) yet
`create " A "` succeeds, because the source tests the pattern on the
trimmed string. -/
theorem featureName_create_pattern_counterexample :
    FeatureName.create " A " = Except.ok ⟨"A"⟩ ∧ featureNamePattern " A " = false :=
  ⟨rfl, rfl⟩

/-- C6 (amended): for every string input, `FeatureName.create` succeeds
exactly when the trimmed input matches `^[a-zA-Z][a-zA-Z0-9_]*$`, and
fails for every other string (the empty and whitespace-only strings
trim to `""`, which fails the pattern). -/
theorem featureName_create_ok_iff (s : String) :
    (∃ n, FeatureName.create s = Except.ok n) ↔ featureNamePattern (jsTrim s) = true := by
  constructor
  · rintro ⟨n, hn⟩
    by_contra h
    rw [Bool.not_eq_true] at h
    have hmem : "機能名は英字で始まり、英数字とアンダースコアのみ使用可能です" ∈
        FeatureName.validate s := by
      unfold FeatureName.validate
      rw [h]
      simp
    have hne : (FeatureName.validate s).isEmpty = false := by
      rw [List.isEmpty_eq_false]
      intro hnil
      rw [hnil] at hmem
      exact List.not_mem_nil _ hmem
    unfold FeatureName.create at hn
    simp only [hne, Bool.false_eq_true, if_false] at hn
    cases hn
  · intro h
    have hd : (jsTrim s).data ≠ [] := by
      intro hnil
      unfold featureNamePattern at h
      rw [hnil] at h
      cases h
    have hne : ¬ (jsTrim s = "") := by
      intro he
      apply hd
      rw [he]
    have hlen : ¬ ((jsTrim s).length < MIN_STRING_LENGTH) := by
      unfold MIN_STRING_LENGTH
      have h0 : (jsTrim s).length = (jsTrim s).data.length := rfl
      have h1 : (jsTrim s).data.length ≠ 0 := fun hz => hd (List.length_eq_zero.mp hz)
      omega
    have hv : FeatureName.validate s = [] := by
      unfold FeatureName.validate
      rw [if_neg hne, if_neg hlen, if_pos h]
      rfl
    refine ⟨⟨jsTrim s⟩, ?_⟩
    unfold FeatureName.create
    rw [hv]
    rfl

/-! ## Claim C8 -/

/-- If the per-element step checks produce no error, every step number
is at least `MIN_STEP_NUMBER`. -/
theorem validateCoreLogicStepsAux_nil_imp :
    ∀ (i : Nat) (steps : List CoreLogicStepData),
      Feature.validateCoreLogicStepsAux i steps = [] →
      ∀ s ∈ steps, MIN_STEP_NUMBER ≤ s.stepNumber := by
  intro i steps
  induction steps generalizing i with
  | nil => intro _ s hs; cases hs
  | cons step rest ih =>
    intro h s hs
    unfold Feature.validateCoreLogicStepsAux at h
    rw [List.append_eq_nil, List.append_eq_nil, List.append_eq_nil] at h
    obtain ⟨⟨⟨h1, _⟩, _⟩, hrest⟩ := h
    rcases List.mem_cons.mp hs with rfl | hs2
    · by_cases hlt : s.stepNumber < MIN_STEP_NUMBER
      · rw [if_pos hlt] at h1; cases h1
      · exact le_of_not_lt hlt
    · exact ih (i + 1) hrest s hs2

/-- C8 counterexample: the claim that validation accepts
`coreLogicSteps` only when every `stepNumber` is an *integer* ≥ 1 fails
on the code: a step with the non-integral number 3/2 passes
`Feature.validateCoreLogicSteps` (the source only checks
`typeof === 'number'` and `>= 1`). -/
theorem validateCoreLogicSteps_non_integer_counterexample :
    Feature.validateCoreLogicSteps [⟨3/2, "d", [], "o"⟩] = [] ∧
    ∀ k : ℤ, ((3 : ℚ)/2) ≠ (k : ℚ) := by
  constructor
  · have h1 : ¬ ((3 : ℚ)/2 < MIN_STEP_NUMBER) := by
      unfold MIN_STEP_NUMBER
      norm_num
    have h2 : ¬ (jsTrim "d" = "") := by decide
    have h3 : ¬ (jsTrim "o" = "") := by decide
    have h5 : ([(3 : ℚ)/2] : List ℚ).dedup = [(3 : ℚ)/2] := by
      rw [List.dedup_cons_of_not_mem (List.not_mem_nil _), List.dedup_nil]
    unfold Feature.validateCoreLogicSteps Feature.validateCoreLogicStepsAux
    rw [if_neg h1, if_neg h2, if_neg h3]
    simp [h5, Feature.validateCoreLogicStepsAux]
  · intro k hk
    have h2 : (3 : ℚ) = (k : ℚ) * 2 := by
      field_simp at hk
      linarith
    have h3 : (3 : ℤ) = k * 2 := by exact_mod_cast h2
    omega

/-- C8 (amended): feature validation accepts a feature's
`coreLogicSteps` only if every entry's `stepNumber` is a *number* ≥ 1
(integrality is not checked) and the step numbers are pairwise
distinct; and any duplication among the step numbers — in particular
two steps sharing `stepNumber` 1 — makes validation fail with the
error naming the duplication, so `Feature.create` fails. -/
theorem validateCoreLogicSteps_spec :
    (∀ steps : List CoreLogicStepData,
      Feature.validateCoreLogicSteps steps = [] →
        (∀ s ∈ steps, MIN_STEP_NUMBER ≤ s.stepNumber) ∧
        (steps.map fun s => s.stepNumber).Nodup) ∧
    (∀ data : FeatureData,
      ¬ (data.coreLogicSteps.map fun s => s.stepNumber).Nodup →
        duplicateStepMsg ∈ Feature.validateFeatureData data ∧
        ∀ f, Feature.create data ≠ Except.ok f) := by
  constructor
  · intro steps h
    unfold Feature.validateCoreLogicSteps at h
    rw [List.append_eq_nil] at h
    obtain ⟨haux, hdup⟩ := h
    refine ⟨validateCoreLogicStepsAux_nil_imp 0 steps haux, ?_⟩
    by_cases hlen : (steps.map fun s => s.stepNumber).length
        = (steps.map fun s => s.stepNumber).dedup.length
    · have heq : (steps.map fun s => s.stepNumber).dedup = steps.map fun s => s.stepNumber :=
        (List.dedup_sublist _).eq_of_length hlen.symm
      rw [← heq]
      exact List.nodup_dedup _
    · rw [if_neg hlen] at hdup
      cases hdup
  · intro data hnd
    have hlen : ¬ ((data.coreLogicSteps.map fun s => s.stepNumber).length
        = (data.coreLogicSteps.map fun s => s.stepNumber).dedup.length) := by
      intro hlen
      apply hnd
      have heq : (data.coreLogicSteps.map fun s => s.stepNumber).dedup
          = data.coreLogicSteps.map fun s => s.stepNumber :=
        (List.dedup_sublist _).eq_of_length hlen.symm
      rw [← heq]
      exact List.nodup_dedup _
    have hmem : duplicateStepMsg ∈ Feature.validateCoreLogicSteps data.coreLogicSteps := by
      unfold Feature.validateCoreLogicSteps
      rw [if_neg hlen]
      exact List.mem_append_right _ (List.mem_singleton_self _)
    have hmem2 : duplicateStepMsg ∈ Feature.validateFeatureData data := by
      unfold Feature.validateFeatureData
      exact List.mem_append_right _ hmem
    refine ⟨hmem2, ?_⟩
    intro f hf
    unfold Feature.create at hf
    cases hn : FeatureName.create data.feature.name with
    | error e => rw [hn] at hf; cases hf
    | ok nm =>
      rw [hn] at hf
      have hne : (Feature.validateFeatureData data).isEmpty = false := by
        rw [List.isEmpty_eq_false]
        intro hnil
        rw [hnil] at hmem2
        exact List.not_mem_nil _ hmem2
      simp only [hne, Bool.false_eq_true, if_false] at hf
      cases hf

/-- Witness for the amended C8: the single step numbered 1 is accepted
and satisfies the bounds; a feature whose two steps both carry
`stepNumber` 1 is rejected with the duplication error. -/
theorem validateCoreLogicSteps_spec_witness :
    ((∀ s ∈ ([⟨1, "d", [], "o"⟩] : List CoreLogicStepData), MIN_STEP_NUMBER ≤ s.stepNumber) ∧
      (([⟨1, "d", [], "o"⟩] : List CoreLogicStepData).map fun s => s.stepNumber).Nodup) ∧
    (duplicateStepMsg ∈ Feature.validateFeatureData
        ⟨⟨"A", "p", []⟩, [], [], [⟨1, "d", [], "o"⟩, ⟨1, "e", [], "p"⟩], [], [], []⟩ ∧
      ∀ f, Feature.create
        ⟨⟨"A", "p", []⟩, [], [], [⟨1, "d", [], "o"⟩, ⟨1, "e", [], "p"⟩], [], [], []⟩
          ≠ Except.ok f) := by
  constructor
  · exact validateCoreLogicSteps_spec.1 [⟨1, "d", [], "o"⟩] (by decide)
  · exact validateCoreLogicSteps_spec.2
      ⟨⟨"A", "p", []⟩, [], [], [⟨1, "d", [], "o"⟩, ⟨1, "e", [], "p"⟩], [], [], []⟩ (by decide)

/-! ## Concrete records used in witnesses and counterexamples -/

/-- A minimal valid feature record with the already-trimmed name
`"Alpha"`. -/
def validFeatureData1 : FeatureData := ⟨⟨"Alpha", "p", []⟩, [], [], [], [], [], []⟩

/-- The entity created from `validFeatureData1`. -/
def validFeature1 : Feature := ⟨⟨"Alpha"⟩, validFeatureData1⟩

/-- A valid feature record whose stored name `" A"` carries leading
whitespace (the identity trims to `"A"`). -/
def cexPadFeatureData : FeatureData := ⟨⟨" A", "p", []⟩, [], [], [], [], [], []⟩

/-- The entity created from `cexPadFeatureData`. -/
def cexPadFeature : Feature := ⟨⟨"A"⟩, cexPadFeatureData⟩

/-- A parsed design document file holding empty collections. -/
def emptyParsedFile : StoredFile := .parsed (some []) (some [])

/-- A minimal valid term record named `"Term1"`. -/
def validTermData1 : TermData :=
  ⟨⟨"Term1", "def1", [], ⟨"bc", "sc"⟩⟩, ⟨"cat", [], []⟩, ⟨[], []⟩, ⟨"map", [], []⟩⟩

/-- The entity created from `validTermData1`. -/
def validTerm1 : Term := ⟨⟨"Term1"⟩, validTermData1⟩

/-- A minimal valid term record named `"Term2"`. -/
def validTermData2 : TermData :=
  ⟨⟨"Term2", "def2", [], ⟨"bc", "sc"⟩⟩, ⟨"cat", [], []⟩, ⟨[], []⟩, ⟨"map", [], []⟩⟩

/-- The entity created from `validTermData2`. -/
def validTerm2 : Term := ⟨⟨"Term2"⟩, validTermData2⟩

/-- A malformed stored term record: its `definition` is blank, so
`Term.create` rejects it. -/
def invalidTermData1 : TermData :=
  ⟨⟨"Bad", "", [], ⟨"bc", "sc"⟩⟩, ⟨"cat", [], []⟩, ⟨[], []⟩, ⟨"map", [], []⟩⟩

/-! ## Claim C1 -/

/-- C1 (amended): for every entity and every loadable document state,
repository save locates an existing stored record by the entity's
identity value: located → replaced in place with `isUpdate = true`,
absent → appended with `isUpdate = false`, and in both cases the whole
updated document is persisted.  The double-save consequence
(`isUpdate = false` then `isUpdate = true` with unchanged collection
length) holds when the record is initially absent *and* the record's
stored name equals its identity value (i.e. carries no surrounding
whitespace); both repositories behave alike. -/
theorem repo_save_upsert_spec :
    (∀ (file : StoredFile) (doc : DesignDocumentData) (f : Feature),
      loadDesignDocument file = Except.ok doc →
      (doc.features.findIdx? (fun fd => fd.feature.name == f.name.value) = none →
        FeatureRepo.save file f =
          Except.ok (⟨false⟩, some ⟨doc.features ++ [f.data], doc.terms⟩)) ∧
      (∀ i, doc.features.findIdx? (fun fd => fd.feature.name == f.name.value) = some i →
        FeatureRepo.save file f =
          Except.ok (⟨true⟩, some ⟨doc.features.set i f.data, doc.terms⟩)) ∧
      (∃ r w, FeatureRepo.save file f = Except.ok (r, some w)) ∧
      (f.data.feature.name = f.name.value →
       doc.features.findIdx? (fun fd => fd.feature.name == f.name.value) = none →
        ∃ d1 d2,
          FeatureRepo.save file f = Except.ok (⟨false⟩, some d1) ∧
          FeatureRepo.save (applyWrite file (some d1)) f = Except.ok (⟨true⟩, some d2) ∧
          d2.features.length = d1.features.length)) ∧
    (∀ (file : StoredFile) (doc : DesignDocumentData) (t : Term),
      loadDesignDocument file = Except.ok doc →
      (doc.terms.findIdx? (fun td => td.term.name == t.name.value) = none →
        TermRepo.save file t =
          Except.ok (⟨false⟩, some ⟨doc.features, doc.terms ++ [t.data]⟩)) ∧
      (∀ i, doc.terms.findIdx? (fun td => td.term.name == t.name.value) = some i →
        TermRepo.save file t =
          Except.ok (⟨true⟩, some ⟨doc.features, doc.terms.set i t.data⟩)) ∧
      (∃ r w, TermRepo.save file t = Except.ok (r, some w)) ∧
      (t.data.term.name = t.name.value →
       doc.terms.findIdx? (fun td => td.term.name == t.name.value) = none →
        ∃ d1 d2,
          TermRepo.save file t = Except.ok (⟨false⟩, some d1) ∧
          TermRepo.save (applyWrite file (some d1)) t = Except.ok (⟨true⟩, some d2) ∧
          d2.terms.length = d1.terms.length)) := by
  constructor
  · intro file doc f hload
    refine ⟨?_, ?_, ?_, ?_⟩
    · intro hidx
      simp only [FeatureRepo.save, hload, hidx]
    · intro i hidx
      simp only [FeatureRepo.save, hload, hidx]
    · cases hidx : doc.features.findIdx? (fun fd => fd.feature.name == f.name.value) with
      | none =>
        exact ⟨⟨false⟩, ⟨doc.features ++ [f.data], doc.terms⟩,
          by simp only [FeatureRepo.save, hload, hidx]⟩
      | some i =>
        exact ⟨⟨true⟩, ⟨doc.features.set i f.data, doc.terms⟩,
          by simp only [FeatureRepo.save, hload, hidx]⟩
    · intro hname hidx
      have hp : (f.data.feature.name == f.name.value) = true := by simp [hname]
      refine ⟨⟨doc.features ++ [f.data], doc.terms⟩,
        ⟨(doc.features ++ [f.data]).set doc.features.length f.data, doc.terms⟩, ?_, ?_, ?_⟩
      · simp only [FeatureRepo.save, hload, hidx]
      · have hload2 : loadDesignDocument
            (applyWrite file (some ⟨doc.features ++ [f.data], doc.terms⟩)) =
            Except.ok ⟨doc.features ++ [f.data], doc.terms⟩ := rfl
        have hidx2 : (doc.features ++ [f.data]).findIdx?
            (fun fd => fd.feature.name == f.name.value) = some doc.features.length :=
          findIdx?_append_singleton hidx hp
        simp only [FeatureRepo.save, hload2, hidx2]
      · simp
  · intro file doc t hload
    refine ⟨?_, ?_, ?_, ?_⟩
    · intro hidx
      simp only [TermRepo.save, hload, hidx]
    · intro i hidx
      simp only [TermRepo.save, hload, hidx]
    · cases hidx : doc.terms.findIdx? (fun td => td.term.name == t.name.value) with
      | none =>
        exact ⟨⟨false⟩, ⟨doc.features, doc.terms ++ [t.data]⟩,
          by simp only [TermRepo.save, hload, hidx]⟩
      | some i =>
        exact ⟨⟨true⟩, ⟨doc.features, doc.terms.set i t.data⟩,
          by simp only [TermRepo.save, hload, hidx]⟩
    · intro hname hidx
      have hp : (t.data.term.name == t.name.value) = true := by simp [hname]
      refine ⟨⟨doc.features, doc.terms ++ [t.data]⟩,
        ⟨doc.features, (doc.terms ++ [t.data]).set doc.terms.length t.data⟩, ?_, ?_, ?_⟩
      · simp only [TermRepo.save, hload, hidx]
      · have hload2 : loadDesignDocument
            (applyWrite file (some ⟨doc.features, doc.terms ++ [t.data]⟩)) =
            Except.ok ⟨doc.features, doc.terms ++ [t.data]⟩ := rfl
        have hidx2 : (doc.terms ++ [t.data]).findIdx?
            (fun td => td.term.name == t.name.value) = some doc.terms.length :=
          findIdx?_append_singleton hidx hp
        simp only [TermRepo.save, hload2, hidx2]
      · simp

/-- Witness for the amended C1: the double-save scenario on an
initially missing file, the replace-in-place branch on a file already
holding the record, and the term-side double save. -/
theorem repo_save_upsert_spec_witness :
    (∃ d1 d2, FeatureRepo.save .missing validFeature1 = Except.ok (⟨false⟩, some d1) ∧
      FeatureRepo.save (applyWrite .missing (some d1)) validFeature1 =
        Except.ok (⟨true⟩, some d2) ∧
      d2.features.length = d1.features.length) ∧
    FeatureRepo.save (.parsed (some [validFeatureData1]) (some [])) validFeature1 =
      Except.ok (⟨true⟩, some ⟨[validFeatureData1].set 0 validFeature1.data, []⟩) ∧
    (∃ d1 d2, TermRepo.save .missing validTerm1 = Except.ok (⟨false⟩, some d1) ∧
      TermRepo.save (applyWrite .missing (some d1)) validTerm1 =
        Except.ok (⟨true⟩, some d2) ∧
      d2.terms.length = d1.terms.length) := by
  refine ⟨?_, ?_, ?_⟩
  · exact (repo_save_upsert_spec.1 .missing ⟨[], []⟩ validFeature1 rfl).2.2.2 rfl rfl
  · exact (repo_save_upsert_spec.1 (.parsed (some [validFeatureData1]) (some []))
      ⟨[validFeatureData1], []⟩ validFeature1 rfl).2.1 0 rfl
  · exact (repo_save_upsert_spec.2 .missing ⟨[], []⟩ validTerm1 rfl).2.2.2 rfl rfl

/-- C1 counterexample: for the valid entity created from
`cexPadFeatureData` (stored name `" A"`, identity value `"A"`), saving
twice into an empty document yields `isUpdate = false` twice and the
collection grows from one record to two — not `isUpdate = true` with
unchanged length as the claim states: save compares the *stored* raw
name against the *trimmed* identity value. -/
theorem repo_save_padded_name_counterexample :
    Feature.create cexPadFeatureData = Except.ok cexPadFeature ∧
    FeatureRepo.save emptyParsedFile cexPadFeature =
      Except.ok (⟨false⟩, some ⟨[cexPadFeatureData], []⟩) ∧
    FeatureRepo.save (applyWrite emptyParsedFile (some ⟨[cexPadFeatureData], []⟩))
        cexPadFeature =
      Except.ok (⟨false⟩, some ⟨[cexPadFeatureData, cexPadFeatureData], []⟩) :=
  ⟨rfl, rfl, rfl⟩

/-! ## Claim C2 -/

/-- A file whose feature collection holds two records with the same
name `"A"` (reachable: the design document is a hand-editable JSON
file and the loader does not deduplicate). -/
def dupFeatureData : FeatureData := ⟨⟨"A", "p", []⟩, [], [], [], [], [], []⟩

/-- The duplicate-name file for the C2 counterexample. -/
def dupFeatureFile : StoredFile := .parsed (some [dupFeatureData, dupFeatureData]) (some [])

/-- C2 (amended): for every identity and every loadable document
state, repository delete returns `found = false` without writing the
file when no stored record has that name, and when a record with that
name exists it removes exactly that (first-located) record and
persists; provided the collection holds at most one record of that
name — the documented uniqueness invariant — deleting again afterwards
returns `found = false`.  Both repositories behave alike. -/
theorem repo_delete_spec :
    (∀ (file : StoredFile) (doc : DesignDocumentData) (name : FeatureName),
      loadDesignDocument file = Except.ok doc →
      (doc.features.findIdx? (fun fd => fd.feature.name == name.value) = none →
        FeatureRepo.delete file name = Except.ok (⟨false⟩, none)) ∧
      (∀ i, doc.features.findIdx? (fun fd => fd.feature.name == name.value) = some i →
        FeatureRepo.delete file name =
          Except.ok (⟨true⟩, some ⟨doc.features.eraseIdx i, doc.terms⟩)) ∧
      (doc.features.countP (fun fd => fd.feature.name == name.value) ≤ 1 →
        ∀ i, doc.features.findIdx? (fun fd => fd.feature.name == name.value) = some i →
          FeatureRepo.delete (applyWrite file (some ⟨doc.features.eraseIdx i, doc.terms⟩)) name =
            Except.ok (⟨false⟩, none))) ∧
    (∀ (file : StoredFile) (doc : DesignDocumentData) (name : TermName),
      loadDesignDocument file = Except.ok doc →
      (doc.terms.findIdx? (fun td => td.term.name == name.value) = none →
        TermRepo.delete file name = Except.ok (⟨false⟩, none)) ∧
      (∀ i, doc.terms.findIdx? (fun td => td.term.name == name.value) = some i →
        TermRepo.delete file name =
          Except.ok (⟨true⟩, some ⟨doc.features, doc.terms.eraseIdx i⟩)) ∧
      (doc.terms.countP (fun td => td.term.name == name.value) ≤ 1 →
        ∀ i, doc.terms.findIdx? (fun td => td.term.name == name.value) = some i →
          TermRepo.delete (applyWrite file (some ⟨doc.features, doc.terms.eraseIdx i⟩)) name =
            Except.ok (⟨false⟩, none))) := by
  constructor
  · intro file doc name hload
    refine ⟨?_, ?_, ?_⟩
    · intro hidx
      simp only [FeatureRepo.delete, hload, hidx]
    · intro i hidx
      simp only [FeatureRepo.delete, hload, hidx]
    · intro hcount i hidx
      have hload2 : loadDesignDocument
          (applyWrite file (some ⟨doc.features.eraseIdx i, doc.terms⟩)) =
          Except.ok ⟨doc.features.eraseIdx i, doc.terms⟩ := rfl
      have hidx2 : (doc.features.eraseIdx i).findIdx?
          (fun fd => fd.feature.name == name.value) = none :=
        findIdx?_eraseIdx_of_countP_le_one hidx hcount
      simp only [FeatureRepo.delete, hload2, hidx2]
  · intro file doc name hload
    refine ⟨?_, ?_, ?_⟩
    · intro hidx
      simp only [TermRepo.delete, hload, hidx]
    · intro i hidx
      simp only [TermRepo.delete, hload, hidx]
    · intro hcount i hidx
      have hload2 : loadDesignDocument
          (applyWrite file (some ⟨doc.features, doc.terms.eraseIdx i⟩)) =
          Except.ok ⟨doc.features, doc.terms.eraseIdx i⟩ := rfl
      have hidx2 : (doc.terms.eraseIdx i).findIdx?
          (fun td => td.term.name == name.value) = none :=
        findIdx?_eraseIdx_of_countP_le_one hidx hcount
      simp only [TermRepo.delete, hload2, hidx2]

/-- Witness for the amended C2: a present unique record is deleted
with `found = true` and deleting again reports `found = false`;
deleting an absent record is a no-op with `found = false`. -/
theorem repo_delete_spec_witness :
    FeatureRepo.delete (.parsed (some [validFeatureData1]) (some [])) ⟨"Alpha"⟩ =
      Except.ok (⟨true⟩, some ⟨([validFeatureData1] : List FeatureData).eraseIdx 0, []⟩) ∧
    FeatureRepo.delete
        (applyWrite (.parsed (some [validFeatureData1]) (some []))
          (some ⟨([validFeatureData1] : List FeatureData).eraseIdx 0, []⟩)) ⟨"Alpha"⟩ =
      Except.ok (⟨false⟩, none) ∧
    TermRepo.delete .missing ⟨"Term1"⟩ = Except.ok (⟨false⟩, none) := by
  refine ⟨?_, ?_, ?_⟩
  · exact (repo_delete_spec.1 (.parsed (some [validFeatureData1]) (some []))
      ⟨[validFeatureData1], []⟩ ⟨"Alpha"⟩ rfl).2.1 0 rfl
  · exact (repo_delete_spec.1 (.parsed (some [validFeatureData1]) (some []))
      ⟨[validFeatureData1], []⟩ ⟨"Alpha"⟩ rfl).2.2 (by decide) 0 rfl
  · exact (repo_delete_spec.2 .missing ⟨[], []⟩ ⟨"Term1"⟩ rfl).1 rfl

/-- C2 counterexample: on a document state holding two records named
`"A"`, deleting `"A"` returns `found = true` and then deleting the
same present record's name again *also* returns `found = true` (one
duplicate remains), not `found = false` as the claim states for every
document state. -/
theorem repo_delete_duplicate_counterexample :
    FeatureRepo.delete dupFeatureFile ⟨"A"⟩ =
      Except.ok (⟨true⟩, some ⟨[dupFeatureData], []⟩) ∧
    FeatureRepo.delete (applyWrite dupFeatureFile (some ⟨[dupFeatureData], []⟩)) ⟨"A"⟩ =
      Except.ok (⟨true⟩, some ⟨[], []⟩) :=
  ⟨rfl, rfl⟩

/-! ## Claim C3 -/

/-- A malformed stored feature record: its `purpose` is blank. -/
def invalidFeatureData1 : FeatureData := ⟨⟨"Bad", "", []⟩, [], [], [], [], [], []⟩

/-- The term-side `findAll` loop fails whenever an error was already
collected or some remaining record fails entity validation. -/
theorem termFindAllGo_error :
    ∀ (l : List TermData) (ts : List Term) (es : List String),
      (es ≠ [] ∨ ∃ td ∈ l, ∃ e, Term.create td = Except.error e) →
      ∃ msg, TermRepo.findAllGo l ts es = Except.error msg := by
  intro l
  induction l with
  | nil =>
    intro ts es h
    rcases h with h | ⟨td, htd, _⟩
    · refine ⟨String.intercalate ", " es, ?_⟩
      have h2 : es.isEmpty = false := List.isEmpty_eq_false.mpr h
      unfold TermRepo.findAllGo
      simp only [h2, Bool.false_eq_true, if_false]
    · cases htd
  | cons td rest ih =>
    intro ts es h
    unfold TermRepo.findAllGo
    cases hc : Term.create td with
    | ok t =>
      apply ih
      rcases h with h | ⟨td2, htd2, e, he⟩
      · exact Or.inl h
      · rcases List.mem_cons.mp htd2 with rfl | hmem
        · rw [hc] at he
          cases he
        · exact Or.inr ⟨td2, hmem, e, he⟩
    | error e =>
      apply ih
      exact Or.inl (by simp)

/-- The feature-side `findAll` loop fails whenever an error was already
collected or some remaining record fails entity validation. -/
theorem featureFindAllGo_error :
    ∀ (l : List FeatureData) (fs : List Feature) (es : List String),
      (es ≠ [] ∨ ∃ fd ∈ l, ∃ e, Feature.create fd = Except.error e) →
      ∃ msg, FeatureRepo.findAllGo l fs es = Except.error msg := by
  intro l
  induction l with
  | nil =>
    intro fs es h
    rcases h with h | ⟨fd, hfd, _⟩
    · refine ⟨String.intercalate ", " es, ?_⟩
      have h2 : es.isEmpty = false := List.isEmpty_eq_false.mpr h
      unfold FeatureRepo.findAllGo
      simp only [h2, Bool.false_eq_true, if_false]
    · cases hfd
  | cons fd rest ih =>
    intro fs es h
    unfold FeatureRepo.findAllGo
    cases hc : Feature.create fd with
    | ok f =>
      apply ih
      rcases h with h | ⟨fd2, hfd2, e, he⟩
      · exact Or.inl h
      · rcases List.mem_cons.mp hfd2 with rfl | hmem
        · rw [hc] at he
          cases he
        · exact Or.inr ⟨fd2, hmem, e, he⟩
    | error e =>
      apply ih
      exact Or.inl (by simp)

/-- C3: for every loadable document state containing at least one
record that fails entity validation, `findAll` fails as a whole
(fail-fast, no partial success), while `getList` on the same document
still succeeds and returns one lightweight summary per stored record
(name and purpose for features; name, definition and category for
terms) without running full validation. -/
theorem repo_findAll_failfast_getList_spec :
    (∀ (file : StoredFile) (doc : DesignDocumentData),
      loadDesignDocument file = Except.ok doc →
      (∃ td ∈ doc.terms, ∃ e, Term.create td = Except.error e) →
        (∃ msg, TermRepo.findAll file = Except.error msg) ∧
        TermRepo.getList file =
          Except.ok (doc.terms.map fun t => ⟨t.term.name, t.term.definition, t.details.category⟩)) ∧
    (∀ (file : StoredFile) (doc : DesignDocumentData),
      loadDesignDocument file = Except.ok doc →
      (∃ fd ∈ doc.features, ∃ e, Feature.create fd = Except.error e) →
        (∃ msg, FeatureRepo.findAll file = Except.error msg) ∧
        FeatureRepo.getList file =
          Except.ok (doc.features.map fun f => ⟨f.feature.name, f.feature.purpose⟩)) := by
  constructor
  · intro file doc hload hbad
    constructor
    · obtain ⟨msg, hmsg⟩ := termFindAllGo_error doc.terms [] [] (Or.inr hbad)
      refine ⟨msg, ?_⟩
      simp only [TermRepo.findAll, hload]
      exact hmsg
    · simp only [TermRepo.getList, hload]
  · intro file doc hload hbad
    constructor
    · obtain ⟨msg, hmsg⟩ := featureFindAllGo_error doc.features [] [] (Or.inr hbad)
      refine ⟨msg, ?_⟩
      simp only [FeatureRepo.findAll, hload]
      exact hmsg
    · simp only [FeatureRepo.getList, hload]

/-- Witness for C3: a document holding a valid term and a term whose
`definition` is blank — `findAll` fails, `getList` enumerates both;
symmetrically for a blank-`purpose` feature. -/
theorem repo_findAll_failfast_getList_spec_witness :
    ((∃ msg, TermRepo.findAll (.parsed (some []) (some [validTermData1, invalidTermData1])) =
        Except.error msg) ∧
      TermRepo.getList (.parsed (some []) (some [validTermData1, invalidTermData1])) =
        Except.ok (([validTermData1, invalidTermData1] : List TermData).map
          fun t => ⟨t.term.name, t.term.definition, t.details.category⟩)) ∧
    ((∃ msg, FeatureRepo.findAll (.parsed (some [validFeatureData1, invalidFeatureData1]) (some [])) =
        Except.error msg) ∧
      FeatureRepo.getList (.parsed (some [validFeatureData1, invalidFeatureData1]) (some [])) =
        Except.ok (([validFeatureData1, invalidFeatureData1] : List FeatureData).map
          fun f => ⟨f.feature.name, f.feature.purpose⟩)) := by
  constructor
  · exact repo_findAll_failfast_getList_spec.1
      (.parsed (some []) (some [validTermData1, invalidTermData1]))
      ⟨[], [validTermData1, invalidTermData1]⟩ rfl
      ⟨invalidTermData1, List.mem_cons_of_mem _ (List.mem_cons_self _ _),
        "用語の定義は必須です", rfl⟩
  · exact repo_findAll_failfast_getList_spec.2
      (.parsed (some [validFeatureData1, invalidFeatureData1]) (some []))
      ⟨[validFeatureData1, invalidFeatureData1], []⟩ rfl
      ⟨invalidFeatureData1, List.mem_cons_of_mem _ (List.mem_cons_self _ _),
        "機能の目的は必須です", rfl⟩

/-! ## Claim C5 -/

/-- C5: a missing document file is treated as the empty document
`{features: [], terms: []}` (e.g. `count` is 0 and `findAll`/`delete`
succeed without error); a malformed (non-JSON) file fails loading and
fails the operation; a parsed file with a missing or non-array
`features`/`terms` key has that key coerced to the empty array rather
than failing the load. -/
theorem load_semantics_spec :
    loadDesignDocument .missing = Except.ok ⟨[], []⟩ ∧
    FeatureRepo.count .missing = Except.ok 0 ∧
    TermRepo.count .missing = Except.ok 0 ∧
    TermRepo.findAll .missing = Except.ok [] ∧
    FeatureRepo.delete .missing ⟨"A"⟩ = Except.ok (⟨false⟩, none) ∧
    (∃ e, loadDesignDocument .invalidJson = Except.error e) ∧
    (∃ e, FeatureRepo.count .invalidJson = Except.error e) ∧
    (∃ e, TermRepo.count .invalidJson = Except.error e) ∧
    (∀ (fOpt : Option (List FeatureData)) (tOpt : Option (List TermData)),
      loadDesignDocument (.parsed fOpt tOpt) = Except.ok ⟨fOpt.getD [], tOpt.getD []⟩) :=
  ⟨rfl, rfl, rfl, rfl, rfl, ⟨_, rfl⟩, ⟨_, rfl⟩, ⟨_, rfl⟩, fun _ _ => rfl⟩

/-! ## Claim C4 -/

/-- When every looked-up record validates, the term `findByNames` loop
partitions the requested names in request order. -/
theorem termFindByNamesGo_ok :
    ∀ (names : List TermName) (stored : List TermData) (f0 : List Term) (nf0 : List TermName),
      (∀ n ∈ names, ∀ td, stored.find? (fun t => t.term.name == n.value) = some td →
        ∃ t, Term.create td = Except.ok t) →
      TermRepo.findByNamesGo stored names f0 nf0 =
        Except.ok
          (f0 ++ names.filterMap fun n =>
            (stored.find? (fun t => t.term.name == n.value)).bind fun td =>
              (Term.create td).toOption,
           nf0 ++ names.filter fun n =>
            (stored.find? (fun t => t.term.name == n.value)).isNone) := by
  intro names
  induction names with
  | nil =>
    intro stored f0 nf0 hall
    simp [TermRepo.findByNamesGo]
  | cons n rest ih =>
    intro stored f0 nf0 hall
    cases hf : stored.find? (fun t => t.term.name == n.value) with
    | some td =>
      obtain ⟨t, ht⟩ := hall n (List.mem_cons_self n rest) td hf
      simp only [TermRepo.findByNamesGo, hf, ht]
      rw [ih stored (f0 ++ [t]) nf0 (fun m hm => hall m (List.mem_cons_of_mem n hm))]
      simp [List.filterMap_cons, List.filter_cons, hf, ht, Except.toOption]
    | none =>
      simp only [TermRepo.findByNamesGo, hf]
      rw [ih stored f0 (nf0 ++ [n]) (fun m hm => hall m (List.mem_cons_of_mem n hm))]
      simp [List.filterMap_cons, List.filter_cons, hf]

/-- If some requested name locates a stored record that fails entity
validation, the term `findByNames` loop fails as a whole. -/
theorem termFindByNamesGo_error :
    ∀ (names : List TermName) (stored : List TermData) (f0 : List Term) (nf0 : List TermName),
      (∃ n ∈ names, ∃ td, stored.find? (fun t => t.term.name == n.value) = some td ∧
        ∃ e, Term.create td = Except.error e) →
      ∃ msg, TermRepo.findByNamesGo stored names f0 nf0 = Except.error msg := by
  intro names
  induction names with
  | nil =>
    intro stored f0 nf0 h
    rcases h with ⟨n, hn, _⟩
    cases hn
  | cons n rest ih =>
    intro stored f0 nf0 h
    rcases h with ⟨n0, hn0, td0, htd0, e0, he0⟩
    rcases List.mem_cons.mp hn0 with rfl | hmem
    · exact ⟨e0, by simp only [TermRepo.findByNamesGo, htd0, he0]⟩
    · cases hf : stored.find? (fun t => t.term.name == n.value) with
      | some td =>
        cases hc : Term.create td with
        | ok t =>
          simp only [TermRepo.findByNamesGo, hf, hc]
          exact ih stored (f0 ++ [t]) nf0 ⟨n0, hmem, td0, htd0, e0, he0⟩
        | error e =>
          exact ⟨e, by simp only [TermRepo.findByNamesGo, hf, hc]⟩
      | none =>
        simp only [TermRepo.findByNamesGo, hf]
        exact ih stored f0 (nf0 ++ [n]) ⟨n0, hmem, td0, htd0, e0, he0⟩

/-- Every name reported `notFound` by the term `findByNames` loop
either was already accumulated or locates no stored record. -/
theorem termFindByNamesGo_notFound :
    ∀ (names : List TermName) (stored : List TermData) (f0 : List Term) (nf0 : List TermName)
      (found : List Term) (notFound : List TermName),
      TermRepo.findByNamesGo stored names f0 nf0 = Except.ok (found, notFound) →
      ∀ n ∈ notFound, n ∈ nf0 ∨ stored.find? (fun t => t.term.name == n.value) = none := by
  intro names
  induction names with
  | nil =>
    intro stored f0 nf0 found notFound h n hn
    unfold TermRepo.findByNamesGo at h
    injection h with h1
    injection h1 with h2 h3
    subst h3
    exact Or.inl hn
  | cons nh rest ih =>
    intro stored f0 nf0 found notFound h n hn
    cases hf : stored.find? (fun t => t.term.name == nh.value) with
    | some td =>
      cases hc : Term.create td with
      | ok t =>
        simp only [TermRepo.findByNamesGo, hf, hc] at h
        exact ih stored (f0 ++ [t]) nf0 found notFound h n hn
      | error e =>
        simp only [TermRepo.findByNamesGo, hf, hc] at h
        cases h
    | none =>
      simp only [TermRepo.findByNamesGo, hf] at h
      rcases ih stored f0 (nf0 ++ [nh]) found notFound h n hn with hin | hnone
      · rcases List.mem_append.mp hin with hin0 | hin1
        · exact Or.inl hin0
        · obtain rfl := List.mem_singleton.mp hin1
          exact Or.inr hf
      · exact Or.inr hnone

/-- C4: for every list of requested identities over a loadable
document, `findByNames` partitions the requests in request order —
names whose stored record exists and validates contribute the entity
to `found`, names with no stored record go to `notFound` — any
looked-up record that exists but fails entity validation fails the
whole call, and a name in `notFound` never has a stored record
(malformed records are never reported absent). -/
theorem termRepo_findByNames_spec :
    (∀ (file : StoredFile) (doc : DesignDocumentData) (names : List TermName),
      loadDesignDocument file = Except.ok doc →
      (∀ n ∈ names, ∀ td, doc.terms.find? (fun t => t.term.name == n.value) = some td →
        ∃ t, Term.create td = Except.ok t) →
      TermRepo.findByNames file names =
        Except.ok
          (names.filterMap fun n => (doc.terms.find? (fun t => t.term.name == n.value)).bind
            fun td => (Term.create td).toOption,
           names.filter fun n => (doc.terms.find? (fun t => t.term.name == n.value)).isNone)) ∧
    (∀ (file : StoredFile) (doc : DesignDocumentData) (names : List TermName),
      loadDesignDocument file = Except.ok doc →
      (∃ n ∈ names, ∃ td, doc.terms.find? (fun t => t.term.name == n.value) = some td ∧
        ∃ e, Term.create td = Except.error e) →
      ∃ msg, TermRepo.findByNames file names = Except.error msg) ∧
    (∀ (file : StoredFile) (doc : DesignDocumentData) (names : List TermName)
      (found : List Term) (notFound : List TermName),
      loadDesignDocument file = Except.ok doc →
      TermRepo.findByNames file names = Except.ok (found, notFound) →
      ∀ n ∈ notFound, doc.terms.find? (fun t => t.term.name == n.value) = none) := by
  refine ⟨?_, ?_, ?_⟩
  · intro file doc names hload hall
    simp only [TermRepo.findByNames, hload]
    rw [termFindByNamesGo_ok names doc.terms [] [] hall]
    simp
  · intro file doc names hload hbad
    obtain ⟨msg, hmsg⟩ := termFindByNamesGo_error names doc.terms [] [] hbad
    refine ⟨msg, ?_⟩
    simp only [TermRepo.findByNames, hload]
    exact hmsg
  · intro file doc names found notFound hload hok n hn
    simp only [TermRepo.findByNames, hload] at hok
    rcases termFindByNamesGo_notFound names doc.terms [] [] found notFound hok n hn with hin | hnone
    · cases hin
    · exact hnone

/-- The stored file for the C4 witness: terms `Term1` and `Term2`. -/
def twoTermsFile : StoredFile := .parsed (some []) (some [validTermData1, validTermData2])

/-- Witness for C4: on the collection `{Term1, Term2}`, requesting
`["Term1", "Term2", "Ghost"]` partitions into the two found entities
(request order) and the absent `Ghost`. -/
theorem termRepo_findByNames_spec_witness :
    TermRepo.findByNames twoTermsFile [⟨"Term1"⟩, ⟨"Term2"⟩, ⟨"Ghost"⟩] =
      Except.ok
        (([⟨"Term1"⟩, ⟨"Term2"⟩, ⟨"Ghost"⟩] : List TermName).filterMap fun n =>
          (([validTermData1, validTermData2] : List TermData).find?
            (fun t => t.term.name == n.value)).bind fun td => (Term.create td).toOption,
         ([⟨"Term1"⟩, ⟨"Term2"⟩, ⟨"Ghost"⟩] : List TermName).filter fun n =>
          (([validTermData1, validTermData2] : List TermData).find?
            (fun t => t.term.name == n.value)).isNone) := by
  apply termRepo_findByNames_spec.1 twoTermsFile ⟨[], [validTermData1, validTermData2]⟩
    [⟨"Term1"⟩, ⟨"Term2"⟩, ⟨"Ghost"⟩] rfl
  intro n hn td htd
  fin_cases hn
  · have heq : ([validTermData1, validTermData2] : List TermData).find?
        (fun t => t.term.name == TermName.value ⟨"Term1"⟩) = some validTermData1 := rfl
    rw [heq] at htd
    injection htd with h
    subst h
    exact ⟨validTerm1, rfl⟩
  · have heq : ([validTermData1, validTermData2] : List TermData).find?
        (fun t => t.term.name == TermName.value ⟨"Term2"⟩) = some validTermData2 := rfl
    rw [heq] at htd
    injection htd with h
    subst h
    exact ⟨validTerm2, rfl⟩
  · have heq : ([validTermData1, validTermData2] : List TermData).find?
        (fun t => t.term.name == TermName.value ⟨"Ghost"⟩) = none := rfl
    rw [heq] at htd
    cases htd

/-! ## Claim C7 -/

/-- C7 (amended): for every entity constructed by `Feature.create`
whose stored name equals its identity value (no surrounding
whitespace), saving and then looking the identity up returns the very
same entity — in particular an entity with identical data — on every
loadable document state. -/
theorem featureRepo_roundtrip_spec :
    ∀ (file : StoredFile) (doc : DesignDocumentData) (d : FeatureData) (f : Feature),
      loadDesignDocument file = Except.ok doc →
      Feature.create d = Except.ok f →
      d.feature.name = f.name.value →
      ∃ r w, FeatureRepo.save file f = Except.ok (r, some w) ∧
        FeatureRepo.findByName (applyWrite file (some w)) f.name = Except.ok (some f) := by
  intro file doc d f hload hcreate hname
  have hdata : f.data = d := featureCreate_ok_data hcreate
  have hp : (f.data.feature.name == f.name.value) = true := by
    rw [hdata, hname]
    simp
  have hcreate2 : Feature.create f.data = Except.ok f := by
    rw [hdata]
    exact hcreate
  cases hidx : doc.features.findIdx? (fun fd => fd.feature.name == f.name.value) with
  | none =>
    refine ⟨⟨false⟩, ⟨doc.features ++ [f.data], doc.terms⟩, ?_, ?_⟩
    · simp only [FeatureRepo.save, hload, hidx]
    · have hload2 : loadDesignDocument
          (applyWrite file (some ⟨doc.features ++ [f.data], doc.terms⟩)) =
          Except.ok ⟨doc.features ++ [f.data], doc.terms⟩ := rfl
      have hfind : (doc.features ++ [f.data]).find?
          (fun fd => fd.feature.name == f.name.value) = some f.data := by
        rw [List.find?_append, find?_eq_none_of_findIdx?_eq_none hidx]
        simp [hp]
      simp only [FeatureRepo.findByName, hload2, hfind, hcreate2]
  | some i =>
    refine ⟨⟨true⟩, ⟨doc.features.set i f.data, doc.terms⟩, ?_, ?_⟩
    · simp only [FeatureRepo.save, hload, hidx]
    · have hload2 : loadDesignDocument
          (applyWrite file (some ⟨doc.features.set i f.data, doc.terms⟩)) =
          Except.ok ⟨doc.features.set i f.data, doc.terms⟩ := rfl
      have hfind : (doc.features.set i f.data).find?
          (fun fd => fd.feature.name == f.name.value) = some f.data :=
        @find?_set_of_findIdx? FeatureData (fun fd => fd.feature.name == f.name.value)
          f.data hp doc.features i hidx
      simp only [FeatureRepo.findByName, hload2, hfind, hcreate2]

/-- Witness for the amended C7: the entity `validFeature1` (trimmed
name `"Alpha"`) round-trips through save and findByName on a missing
file. -/
theorem featureRepo_roundtrip_spec_witness :
    ∃ r w, FeatureRepo.save .missing validFeature1 = Except.ok (r, some w) ∧
      FeatureRepo.findByName (applyWrite .missing (some w)) validFeature1.name =
        Except.ok (some validFeature1) :=
  featureRepo_roundtrip_spec .missing ⟨[], []⟩ validFeatureData1 validFeature1 rfl rfl rfl

/-- C7 counterexample: the entity created from `cexPadFeatureData`
(stored name `" A"`, identity value `"A"`) passed `create`, yet after
saving it, `findByName` on its identity returns `none` rather than an
entity with identical data — the lookup compares the raw stored name
with the trimmed identity value. -/
theorem featureRepo_roundtrip_padded_counterexample :
    Feature.create cexPadFeatureData = Except.ok cexPadFeature ∧
    FeatureRepo.save emptyParsedFile cexPadFeature =
      Except.ok (⟨false⟩, some ⟨[cexPadFeatureData], []⟩) ∧
    FeatureRepo.findByName (applyWrite emptyParsedFile (some ⟨[cexPadFeatureData], []⟩))
        cexPadFeature.name = Except.ok none :=
  ⟨rfl, rfl, rfl⟩

/-! ## Claim C9 -/

/-- A non-empty feature-name list containing a string that fails
identity conversion makes `getFeatures` fail. -/
theorem getFeatures_error (file : StoredFile) (names : List String)
    (hne : names ≠ []) (hbad : ∃ n ∈ names, ∃ e, FeatureName.create n = Except.error e) :
    ∃ msg, GetDetailsUseCase.getFeatures file (some names) = Except.error msg := by
  have hlen : ¬ (names.length = 0) := fun h0 => hne (List.length_eq_zero.mp h0)
  obtain ⟨n0, hn0, e0, he0⟩ := hbad
  have hmem : e0 ∈ (names.map FeatureName.create).filterMap fun r =>
      match r with | .error e => some e | .ok _ => none := by
    rw [List.mem_filterMap]
    exact ⟨FeatureName.create n0, List.mem_map_of_mem _ hn0, by rw [he0]⟩
  have hinv : ((names.map FeatureName.create).filterMap fun r =>
      match r with | .error e => some e | .ok _ => none).isEmpty = false := by
    rw [List.isEmpty_eq_false]
    intro hnil
    rw [hnil] at hmem
    exact List.not_mem_nil _ hmem
  refine ⟨"不正な機能名が含まれています: " ++ String.intercalate ", "
    ((names.map FeatureName.create).filterMap fun r =>
      match r with | .error e => some e | .ok _ => none), ?_⟩
  simp only [GetDetailsUseCase.getFeatures]
  rw [if_neg hlen, hinv, if_neg Bool.false_ne_true]

/-- A non-empty term-name list containing a string that fails identity
conversion makes `getTerms` fail. -/
theorem getTerms_error (file : StoredFile) (names : List String)
    (hne : names ≠ []) (hbad : ∃ n ∈ names, ∃ e, TermName.create n = Except.error e) :
    ∃ msg, GetDetailsUseCase.getTerms file (some names) = Except.error msg := by
  have hlen : ¬ (names.length = 0) := fun h0 => hne (List.length_eq_zero.mp h0)
  obtain ⟨n0, hn0, e0, he0⟩ := hbad
  have hmem : e0 ∈ (names.map TermName.create).filterMap fun r =>
      match r with | .error e => some e | .ok _ => none := by
    rw [List.mem_filterMap]
    exact ⟨TermName.create n0, List.mem_map_of_mem _ hn0, by rw [he0]⟩
  have hinv : ((names.map TermName.create).filterMap fun r =>
      match r with | .error e => some e | .ok _ => none).isEmpty = false := by
    rw [List.isEmpty_eq_false]
    intro hnil
    rw [hnil] at hmem
    exact List.not_mem_nil _ hmem
  refine ⟨"不正な用語名が含まれています: " ++ String.intercalate ", "
    ((names.map TermName.create).filterMap fun r =>
      match r with | .error e => some e | .ok _ => none), ?_⟩
  simp only [GetDetailsUseCase.getTerms]
  rw [if_neg hlen, hinv, if_neg Bool.false_ne_true]

/-- C9: for the get-details use case, an absent or empty name list
yields the empty found/notFound pair for that category on *every* file
state — even an unloadable one, so the repository is never consulted;
a non-empty list with any string failing identity conversion fails the
entire call; and a non-empty list of convertible names is delegated to
the repository's `findByNames`. -/
theorem getDetails_execute_spec :
    (∀ file : StoredFile,
      GetDetailsUseCase.getFeatures file none = Except.ok ([], []) ∧
      GetDetailsUseCase.getFeatures file (some []) = Except.ok ([], []) ∧
      GetDetailsUseCase.getTerms file none = Except.ok ([], []) ∧
      GetDetailsUseCase.getTerms file (some []) = Except.ok ([], []) ∧
      GetDetailsUseCase.execute file none none = Except.ok ⟨[], [], ⟨[], []⟩⟩) ∧
    (∀ (file : StoredFile) (names : List String) (tn : Option (List String)),
      names ≠ [] → (∃ n ∈ names, ∃ e, FeatureName.create n = Except.error e) →
      ∃ msg, GetDetailsUseCase.execute file (some names) tn = Except.error msg) ∧
    (∀ (file : StoredFile) (fn : Option (List String)) (names : List String),
      names ≠ [] → (∃ n ∈ names, ∃ e, TermName.create n = Except.error e) →
      ∃ msg, GetDetailsUseCase.execute file fn (some names) = Except.error msg) ∧
    (∀ (file : StoredFile) (names : List String),
      names ≠ [] → (∀ n ∈ names, ∃ nm, FeatureName.create n = Except.ok nm) →
      GetDetailsUseCase.getFeatures file (some names) =
        FeatureRepo.findByNames file
          (names.filterMap fun n => (FeatureName.create n).toOption)) ∧
    (∀ (file : StoredFile) (names : List String),
      names ≠ [] → (∀ n ∈ names, ∃ nm, TermName.create n = Except.ok nm) →
      GetDetailsUseCase.getTerms file (some names) =
        TermRepo.findByNames file
          (names.filterMap fun n => (TermName.create n).toOption)) := by
  refine ⟨fun file => ⟨rfl, rfl, rfl, rfl, rfl⟩, ?_, ?_, ?_, ?_⟩
  · intro file names tn hne hbad
    obtain ⟨msg, hmsg⟩ := getFeatures_error file names hne hbad
    refine ⟨msg, ?_⟩
    simp only [GetDetailsUseCase.execute, hmsg]
  · intro file fn names hne hbad
    cases hg : GetDetailsUseCase.getFeatures file fn with
    | error e => exact ⟨e, by simp only [GetDetailsUseCase.execute, hg]⟩
    | ok v =>
      obtain ⟨msg, hmsg⟩ := getTerms_error file names hne hbad
      exact ⟨msg, by simp only [GetDetailsUseCase.execute, hg, hmsg]⟩
  · intro file names hne hok
    have hlen : ¬ (names.length = 0) := fun h0 => hne (List.length_eq_zero.mp h0)
    have hinv : ((names.map FeatureName.create).filterMap fun r =>
        match r with | .error e => some e | .ok _ => none) = [] := by
      rw [List.filterMap_eq_nil_iff]
      intro r hr
      rcases List.mem_map.mp hr with ⟨n, hn, rfl⟩
      obtain ⟨nm, hnm⟩ := hok n hn
      rw [hnm]
    have htrue : ([] : List String).isEmpty = true := rfl
    simp only [GetDetailsUseCase.getFeatures]
    rw [if_neg hlen, hinv, if_pos htrue, List.filterMap_map]
    rfl
  · intro file names hne hok
    have hlen : ¬ (names.length = 0) := fun h0 => hne (List.length_eq_zero.mp h0)
    have hinv : ((names.map TermName.create).filterMap fun r =>
        match r with | .error e => some e | .ok _ => none) = [] := by
      rw [List.filterMap_eq_nil_iff]
      intro r hr
      rcases List.mem_map.mp hr with ⟨n, hn, rfl⟩
      obtain ⟨nm, hnm⟩ := hok n hn
      rw [hnm]
    have htrue : ([] : List String).isEmpty = true := rfl
    simp only [GetDetailsUseCase.getTerms]
    rw [if_neg hlen, hinv, if_pos htrue, List.filterMap_map]
    rfl

/-- Witness for C9: the empty-parameter shortcut succeeds even on a
malformed file; an invalid feature name (`"1bad"`) or term name
(`"@@"`) fails the whole call; valid names delegate to `findByNames`. -/
theorem getDetails_execute_spec_witness :
    GetDetailsUseCase.execute .invalidJson none none = Except.ok ⟨[], [], ⟨[], []⟩⟩ ∧
    (∃ msg, GetDetailsUseCase.execute .missing (some ["1bad"]) none = Except.error msg) ∧
    (∃ msg, GetDetailsUseCase.execute .missing none (some ["@@"]) = Except.error msg) ∧
    GetDetailsUseCase.getFeatures .missing (some ["Alpha"]) =
      FeatureRepo.findByNames .missing
        ((["Alpha"] : List String).filterMap fun n => (FeatureName.create n).toOption) ∧
    GetDetailsUseCase.getTerms .missing (some ["Term1"]) =
      TermRepo.findByNames .missing
        ((["Term1"] : List String).filterMap fun n => (TermName.create n).toOption) := by
  refine ⟨(getDetails_execute_spec.1 .invalidJson).2.2.2.2, ?_, ?_, ?_, ?_⟩
  · exact getDetails_execute_spec.2.1 .missing ["1bad"] none (by simp)
      ⟨"1bad", by simp, "機能名は英字で始まり、英数字とアンダースコアのみ使用可能です", rfl⟩
  · exact getDetails_execute_spec.2.2.1 .missing none ["@@"] (by simp)
      ⟨"@@", by simp, "用語名は日本語、英数字、ハイフン、アンダースコア、スペースのみ使用可能です", rfl⟩
  · exact getDetails_execute_spec.2.2.2.1 .missing ["Alpha"] (by simp)
      (fun n hn => by fin_cases hn; exact ⟨⟨"Alpha"⟩, rfl⟩)
  · exact getDetails_execute_spec.2.2.2.2 .missing ["Term1"] (by simp)
      (fun n hn => by fin_cases hn; exact ⟨⟨"Term1"⟩, rfl⟩)

/-! ## Claim C10 -/

/-- A file holding one feature and one term, used to witness the frame
property. -/
def mixedFile : StoredFile := .parsed (some [validFeatureData1]) (some [validTermData1])

/-- C10: feature-repository mutations touch only the `features`
collection and term-repository mutations only the `terms` collection —
whenever save or delete writes a document back, the other collection
equals the one that was loaded. -/
theorem repo_frame_spec :
    ∀ (file : StoredFile) (doc : DesignDocumentData),
      loadDesignDocument file = Except.ok doc →
      (∀ (f : Feature) (r : OperationResultData) (w : DesignDocumentData),
        FeatureRepo.save file f = Except.ok (r, some w) → w.terms = doc.terms) ∧
      (∀ (name : FeatureName) (r : DeletionResultData) (w : DesignDocumentData),
        FeatureRepo.delete file name = Except.ok (r, some w) → w.terms = doc.terms) ∧
      (∀ (t : Term) (r : OperationResultData) (w : DesignDocumentData),
        TermRepo.save file t = Except.ok (r, some w) → w.features = doc.features) ∧
      (∀ (name : TermName) (r : DeletionResultData) (w : DesignDocumentData),
        TermRepo.delete file name = Except.ok (r, some w) → w.features = doc.features) := by
  intro file doc hload
  refine ⟨?_, ?_, ?_, ?_⟩
  · intro f r w hs
    cases hidx : doc.features.findIdx? (fun fd => fd.feature.name == f.name.value) with
    | some i =>
      simp only [FeatureRepo.save, hload, hidx] at hs
      injection hs with h1
      injection h1 with h2 h3
      injection h3 with h4
      rw [← h4]
    | none =>
      simp only [FeatureRepo.save, hload, hidx] at hs
      injection hs with h1
      injection h1 with h2 h3
      injection h3 with h4
      rw [← h4]
  · intro name r w hs
    cases hidx : doc.features.findIdx? (fun fd => fd.feature.name == name.value) with
    | some i =>
      simp only [FeatureRepo.delete, hload, hidx] at hs
      injection hs with h1
      injection h1 with h2 h3
      injection h3 with h4
      rw [← h4]
    | none =>
      simp only [FeatureRepo.delete, hload, hidx] at hs
      injection hs with h1
      injection h1 with h2 h3
      exact Option.noConfusion h3
  · intro t r w hs
    cases hidx : doc.terms.findIdx? (fun td => td.term.name == t.name.value) with
    | some i =>
      simp only [TermRepo.save, hload, hidx] at hs
      injection hs with h1
      injection h1 with h2 h3
      injection h3 with h4
      rw [← h4]
    | none =>
      simp only [TermRepo.save, hload, hidx] at hs
      injection hs with h1
      injection h1 with h2 h3
      injection h3 with h4
      rw [← h4]
  · intro name r w hs
    cases hidx : doc.terms.findIdx? (fun td => td.term.name == name.value) with
    | some i =>
      simp only [TermRepo.delete, hload, hidx] at hs
      injection hs with h1
      injection h1 with h2 h3
      injection h3 with h4
      rw [← h4]
    | none =>
      simp only [TermRepo.delete, hload, hidx] at hs
      injection hs with h1
      injection h1 with h2 h3
      exact Option.noConfusion h3

/-- Witness for C10: a feature save on `mixedFile` writes the loaded
`terms` back unchanged, and a term delete writes the loaded `features`
back unchanged. -/
theorem repo_frame_spec_witness :
    (⟨([validFeatureData1] : List FeatureData).set 0 validFeature1.data,
        [validTermData1]⟩ : DesignDocumentData).terms = [validTermData1] ∧
    (⟨[validFeatureData1], ([validTermData1] : List TermData).eraseIdx 0⟩ :
        DesignDocumentData).features = [validFeatureData1] := by
  constructor
  · exact (repo_frame_spec mixedFile ⟨[validFeatureData1], [validTermData1]⟩ rfl).1
      validFeature1 ⟨true⟩ ⟨([validFeatureData1] : List FeatureData).set 0 validFeature1.data,
        [validTermData1]⟩ rfl
  · exact (repo_frame_spec mixedFile ⟨[validFeatureData1], [validTermData1]⟩ rfl).2.2.2
      ⟨"Term1"⟩ ⟨true⟩ ⟨[validFeatureData1],
        ([validTermData1] : List TermData).eraseIdx 0⟩ rfl
